import Mathlib

/-!
Verification of the symbolic memory model in `ir/memory.cpp`.

The development is a shallow embedding: SMT bit-vector terms of width `w`
are represented by their values, natural numbers reduced modulo `2^w`;
the symbolic byte array `blocks_val` becomes a function `Nat → Nat`;
the uninterpreted functions `blks_addr`/`blks_size` become explicit
parameters collected in `UFEnv`; the verification state accumulating
preconditions and undefined-behaviour conditions becomes a record of
`List Prop`.  Machine `unsigned` loop counters are `Nat`.
-/

set_option autoImplicit false

namespace MemModel

/-- Value of `e.extract(lo + width - 1, lo)` on a bit-vector value `x`. -/
def extractBits (x lo width : Nat) : Nat :=
  (x / 2 ^ lo) % 2 ^ width

/-- Value of `e.sextOrTrunc(w')` for a term `e` of width `w` holding value `x`
(truncate when `w' ≤ w`, sign-extend otherwise, as in the smt wrapper). -/
def sextTo (w w' x : Nat) : Nat :=
  if w' ≤ w then x % 2 ^ w'
  else if x % 2 ^ w < 2 ^ (w - 1) then x % 2 ^ w
  else x % 2 ^ w + (2 ^ w' - 2 ^ w)

/-- Value of `e.zextOrTrunc(w')`: reduction modulo `2^w'` (zero extension does
not change the value; truncation drops high bits). -/
def zextTo (w' x : Nat) : Nat :=
  x % 2 ^ w'

/-- Modelled from the spec: `util::ilog2` from `util/compiler.h` (not under
`src/`), the position of the highest set bit, i.e. floor of log2, with
`ilog2 0 = 0`.  Written with explicit fuel so that it is structurally
recursive and reduces inside the kernel. -/
def ilog2_fuel : Nat → Nat → Nat
  | 0, _ => 0
  | fuel + 1, n => if n ≤ 1 then 0 else ilog2_fuel fuel (n / 2) + 1

/-- Modelled from the spec: `util::ilog2`, see `ilog2_fuel`. -/
def ilog2 (n : Nat) : Nat :=
  ilog2_fuel n n

/-- Modelled from the spec: `util::divide_up` from `util/compiler.h`
(not under `src/`), the ceiling division `⌈a / b⌉` used for the byte
count of a `bits`-bit value. -/
def divide_up (a b : Nat) : Nat :=
  (a + b - 1) / b

/-- Widths fixed per run: offset, local block id, non-local block id and
`size_t` widths (`m.bits_for_offset`, `m.bits_for_local_bid`,
`m.bits_for_nonlocal_bid`, `m.bits_size_t` in the source). -/
structure MemCfg where
  bits_for_offset : Nat
  bits_for_local_bid : Nat
  bits_for_nonlocal_bid : Nat
  bits_size_t : Nat
deriving DecidableEq

/-- Width of the combined block-id field (`Pointer::bits_for_bids`). -/
def MemCfg.bits_for_bids (cfg : MemCfg) : Nat :=
  cfg.bits_for_local_bid + cfg.bits_for_nonlocal_bid

/-- Width of a whole pointer term (`Pointer::total_bits`). -/
def MemCfg.total_bits (cfg : MemCfg) : Nat :=
  cfg.bits_for_bids + cfg.bits_for_offset

/-- Interpretations of the uninterpreted functions of the model.  The local
variants take the run flag (`state->isSource()`) because their smt names are
run-qualified (`blks_addr_src` / `blks_addr_tgt`, etc.). -/
structure UFEnv where
  blks_addr_local : Bool → Nat → Nat
  blks_addr_nonlocal : Nat → Nat
  blks_size_local : Bool → Nat → Nat
  blks_size_nonlocal : Nat → Nat

/-- Verification state: accumulated preconditions, undefined-behaviour
conditions, and the source/target flag (`IR::State`, external interface). -/
structure State where
  pres : List Prop
  ubs : List Prop
  isSource : Bool

/-- Operation `state->addPre(e)`. -/
def State.addPre (s : State) (p : Prop) : State :=
  { s with pres := s.pres ++ [p] }

/-- Operation `state->addUB(e)`. -/
def State.addUB (s : State) (p : Prop) : State :=
  { s with ubs := s.ubs ++ [p] }

/-- Pair of a value term and a non-poison term (`IR::StateValue`). -/
structure StateValue where
  value : Nat
  non_poison : Nat
deriving DecidableEq

/-- Type abstraction: bit width together with the bit-vector reinterpretation
functions `toBV` / `fromBV` (external interface of `IR::Type`).  The output of
`toBV` is a bit-vector of width `bits`; this width identity, enforced by the
term algebra in the source (`val.value.bits()`), appears here through the
well-formedness hypothesis `(toBV v).value < 2 ^ bits` of the theorems. -/
structure Ty where
  bits : Nat
  toBV : StateValue → StateValue
  fromBV : StateValue → StateValue

namespace Pointer

/-- Field `get_bid()`: extract of the low `bits_for_bids` bits. -/
def get_bid (cfg : MemCfg) (p : Nat) : Nat :=
  p % 2 ^ cfg.bits_for_bids

/-- Field `get_local_bid()`. -/
def get_local_bid (cfg : MemCfg) (p : Nat) : Nat :=
  extractBits p cfg.bits_for_nonlocal_bid cfg.bits_for_local_bid

/-- Field `get_nonlocal_bid()`. -/
def get_nonlocal_bid (cfg : MemCfg) (p : Nat) : Nat :=
  p % 2 ^ cfg.bits_for_nonlocal_bid

/-- Field `get_offset()`: extract of the high `bits_for_offset` bits. -/
def get_offset (cfg : MemCfg) (p : Nat) : Nat :=
  extractBits p cfg.bits_for_bids cfg.bits_for_offset

/-- Predicate `is_local()`: both fields are checked because of undef
pointers. -/
def is_local (cfg : MemCfg) (p : Nat) : Bool :=
  decide (get_local_bid cfg p ≠ 0) && decide (get_nonlocal_bid cfg p = 0)

/-- Constructor `Pointer(Memory&, unsigned bid, bool local)`: offset zero,
the bid shifted into the local slot when `local`. -/
def ofBid (cfg : MemCfg) (bid : Nat) (lcl : Bool) : Nat :=
  if lcl then bid * 2 ^ cfg.bits_for_nonlocal_bid % 2 ^ cfg.bits_for_bids
  else bid % 2 ^ cfg.bits_for_bids

/-- Operation `get_address()`: sign-extended offset plus the block's base
address drawn from the run-qualified uninterpreted function. -/
def get_address (cfg : MemCfg) (env : UFEnv) (src : Bool) (p : Nat) : Nat :=
  (sextTo cfg.bits_for_offset cfg.bits_size_t (get_offset cfg p) +
    (if is_local cfg p then env.blks_addr_local src (get_local_bid cfg p) % 2 ^ cfg.bits_size_t
     else env.blks_addr_nonlocal (get_nonlocal_bid cfg p) % 2 ^ cfg.bits_size_t)) %
    2 ^ cfg.bits_size_t

/-- Operation `block_size()`: a zero bit concatenated with the
`bits_size_t - 1`-bit size drawn from the uninterpreted function. -/
def block_size (cfg : MemCfg) (env : UFEnv) (src : Bool) (p : Nat) : Nat :=
  if is_local cfg p then env.blks_size_local src (get_local_bid cfg p) % 2 ^ (cfg.bits_size_t - 1)
  else env.blks_size_nonlocal (get_nonlocal_bid cfg p) % 2 ^ (cfg.bits_size_t - 1)

/-- Operation `operator+(const expr &bytes)`: the new offset is the truncation
to offset width of `sext(offset) + zext(bytes)` computed at `size_t` width;
the bid field is reused unchanged, and the result is the concatenation
`offset' ‖ bid`. -/
def add (cfg : MemCfg) (p bytes : Nat) : Nat :=
  ((sextTo cfg.bits_for_offset cfg.bits_size_t (get_offset cfg p) +
      bytes % 2 ^ cfg.bits_size_t) % 2 ^ cfg.bits_size_t % 2 ^ cfg.bits_for_offset) *
    2 ^ cfg.bits_for_bids + get_bid cfg p

/-- Operation `operator+(unsigned bytes)`: the count is first materialised as
an offset-width constant `mkUInt(bytes, bits_for_offset)`. -/
def addUInt (cfg : MemCfg) (p bytes : Nat) : Nat :=
  add cfg p (bytes % 2 ^ cfg.bits_for_offset)

/-- Predicate `is_aligned(align)`: low `ilog2 align` bits of the address are
zero, trivially true when `ilog2 align = 0`. -/
def is_aligned (cfg : MemCfg) (env : UFEnv) (src : Bool) (p align : Nat) : Prop :=
  if ilog2 align = 0 then True
  else extractBits (get_address cfg env src p) 0 (ilog2 align) = 0

/-- Operation `is_dereferenceable(const expr &bytes0, unsigned align)`:
emits one undefined-behaviour condition into the state.  The first conjunct
compares the wrapped `size_t` sum with the block size, the second rules out
unsigned overflow of that sum, the third is the alignment check. -/
def is_dereferenceable (cfg : MemCfg) (env : UFEnv) (p bytes0 align : Nat)
    (st : State) : State :=
  let block_sz := block_size cfg env st.isSource p
  let offset := sextTo cfg.bits_for_offset cfg.bits_size_t (get_offset cfg p)
  let bytes := zextTo cfg.bits_size_t bytes0
  st.addUB (bytes > 0 →
    (offset + bytes) % 2 ^ cfg.bits_size_t ≤ block_sz ∧
    offset + bytes < 2 ^ cfg.bits_size_t ∧
    is_aligned cfg env st.isSource p align)

/-- Operation `is_dereferenceable(unsigned bytes, unsigned align)`: the byte
count is materialised as an offset-width constant first. -/
def is_dereferenceableU (cfg : MemCfg) (env : UFEnv) (p bytes align : Nat)
    (st : State) : State :=
  is_dereferenceable cfg env p (bytes % 2 ^ cfg.bits_for_offset) align st

/-- Comparison `uge`: value is the unsigned comparison of the offsets, the
non-poison component is the same-block test (macro `DEFINE_CMP`). -/
def uge (cfg : MemCfg) (p q : Nat) : Bool × Bool :=
  (decide (get_offset cfg q ≤ get_offset cfg p),
   decide (get_bid cfg p = get_bid cfg q))

/-- Comparison `ult`, see `uge`. -/
def ult (cfg : MemCfg) (p q : Nat) : Bool × Bool :=
  (decide (get_offset cfg p < get_offset cfg q),
   decide (get_bid cfg p = get_bid cfg q))

/-- Convention `.both()` on a comparison pair: value and non-poison conjoined. -/
def both (r : Bool × Bool) : Bool :=
  r.1 && r.2

/-- Helper `disjoint` on unsigned intervals (additions wrap at `size_t`
width as in the smt terms). -/
def disjointIntervals (cfg : MemCfg) (begin1 len1 begin2 len2 : Nat) : Prop :=
  (begin2 + len2) % 2 ^ cfg.bits_size_t ≤ begin1 ∨
  (begin1 + len1) % 2 ^ cfg.bits_size_t ≤ begin2

/-- Operation `is_disjoint(len1, ptr2, len2)`: emits one undefined-behaviour
condition requiring different blocks or disjoint offset intervals. -/
def is_disjoint (cfg : MemCfg) (p len1 q len2 : Nat) (st : State) : State :=
  st.addUB (get_bid cfg p ≠ get_bid cfg q ∨
    disjointIntervals cfg
      (sextTo cfg.bits_for_offset cfg.bits_size_t (get_offset cfg p))
      (zextTo cfg.bits_size_t len1)
      (sextTo cfg.bits_for_offset cfg.bits_size_t (get_offset cfg q))
      (zextTo cfg.bits_size_t len2))

end Pointer

/-- Symbolic heap (`IR::Memory`): the 9-bit-cell byte array keyed by encoded
pointer bits, the two counters, and an identifier standing for the `State *`
back-reference (the code asserts equality of these pointers at merge). -/
structure Memory where
  blocks_val : Nat → Nat
  last_bid : Nat
  last_idx_ptr : Nat
  stateRef : Nat

namespace Memory

/-- Constructor `Memory(State&)`: values of the fresh symbolic array
`blks_val` are overridden so that every local address holds the all-zero
9-bit cell; the counters start at zero (their initialisers live in the
header, which is not under `src/`; zero follows the spec's lifecycle). -/
def initial (cfg : MemCfg) (blks_val : Nat → Nat) (stateRef : Nat) : Memory :=
  { blocks_val := fun idx =>
      if Pointer.is_local cfg idx then 0 else blks_val idx % 2 ^ 9
    last_bid := 0
    last_idx_ptr := 0
    stateRef := stateRef }

/-- Operation `alloc(bytes, align, local)`: pre-increment the bid counter,
build the pointer at offset zero, and emit the alignment and the block-size
equation as preconditions.  Returns the pointer term with the updated heap
and state. -/
def alloc (cfg : MemCfg) (env : UFEnv) (m : Memory) (st : State)
    (bytes align : Nat) (lcl : Bool) : Nat × Memory × State :=
  let bid := m.last_bid + 1
  let p := Pointer.ofBid cfg bid lcl
  let st := st.addPre (Pointer.is_aligned cfg env st.isSource p align)
  let st := st.addPre
    (Pointer.block_size cfg env st.isSource p = zextTo cfg.bits_size_t bytes)
  (p, { m with last_bid := bid }, st)

/-- Operation `free(ptr)`: a stub with no observable effect. -/
def free (m : Memory) (_ptr : Nat) : Memory :=
  m

/-- Ascending store loop of `Memory::store`: `storeBytes cfg p np v k g` is
the heap after the first `k` iterations, iteration `i` writing the cell
`np ‖ byte_i(v)` at the encoding of `p + i`. -/
def storeBytes (cfg : MemCfg) (p np v : Nat) : Nat → (Nat → Nat) → Nat → Nat
  | 0, g => g
  | k + 1, g => fun a =>
      if a = Pointer.addUInt cfg p k then np * 2 ^ 8 + extractBits v (8 * k) 8
      else storeBytes cfg p np v k g a

/-- Operation `store(p, v, type, align)`: reinterpret through the type,
zero-extend to a whole number of bytes (a no-op on values), emit the
dereferenceability condition, and write the bytes in little-endian order. -/
def store (cfg : MemCfg) (env : UFEnv) (ty : Ty) (align : Nat) (m : Memory)
    (st : State) (p : Nat) (v : StateValue) : Memory × State :=
  let val := ty.toBV v
  let bytes := divide_up ty.bits 8
  let st := Pointer.is_dereferenceableU cfg env p bytes align st
  ({ m with blocks_val := storeBytes cfg p val.non_poison val.value bytes m.blocks_val }, st)

/-- Ascending load loop of `Memory::load`: the value is the little-endian
concatenation of the fetched bytes, the non-poison flag the bitwise `or` of
the fetched top bits.  The `k = 0` result models the default-initialised
`StateValue` of the source. -/
def loadBytes (cfg : MemCfg) (p : Nat) (g : Nat → Nat) : Nat → StateValue
  | 0 => ⟨0, 0⟩
  | k + 1 =>
      let prev := loadBytes cfg p g k
      let cell := g (Pointer.addUInt cfg p k)
      ⟨extractBits cell 0 8 * 2 ^ (8 * k) + prev.value,
       Nat.lor (extractBits cell 8 1) prev.non_poison⟩

/-- Operation `load(p, type, align)`: emit the dereferenceability condition,
assemble the bytes, truncate to the type's bit width and reinterpret through
the type. -/
def load (cfg : MemCfg) (env : UFEnv) (ty : Ty) (align : Nat) (m : Memory)
    (st : State) (p : Nat) : StateValue × State :=
  let bytes := divide_up ty.bits 8
  let st := Pointer.is_dereferenceableU cfg env p bytes align st
  let val := loadBytes cfg p m.blocks_val bytes
  (ty.fromBV ⟨val.value % 2 ^ ty.bits, val.non_poison⟩, st)

/-- Conversion `toBVBool()` of a boolean non-poison term to a one-bit value. -/
def toBVBool (b : Nat) : Nat :=
  if b = 0 then 0 else 1

/-- Unrolled loop of the `memset` fast path, writing the same cell at
`p + i` for `i < k` in ascending order. -/
def memsetLoop (cfg : MemCfg) (p cell : Nat) : Nat → (Nat → Nat) → Nat → Nat
  | 0, g => g
  | k + 1, g => fun a =>
      if a = Pointer.addUInt cfg p k then cell
      else memsetLoop cfg p cell k g a

/-- Operation `memset(p, val, bytes, align)`: dereferenceability condition,
then either the unrolled fast path (ground length at most 4 — in this value
model every length is ground) or the lambda rewrite of the whole range. -/
def memset (cfg : MemCfg) (env : UFEnv) (m : Memory) (st : State)
    (p : Nat) (val : StateValue) (bytes align : Nat) : Memory × State :=
  let st := Pointer.is_dereferenceable cfg env p bytes align st
  let store_val := toBVBool val.non_poison * 2 ^ 8 + val.value
  if bytes ≤ 4 then
    ({ m with blocks_val := memsetLoop cfg p store_val bytes m.blocks_val }, st)
  else
    let m' := { m with
      blocks_val := fun idx =>
        if Pointer.both (Pointer.uge cfg idx p) &&
            Pointer.both (Pointer.ult cfg idx (Pointer.add cfg p bytes)) then store_val
        else m.blocks_val idx
      last_idx_ptr := m.last_idx_ptr + 1 }
    (m', st)

/-- Unrolled loop of the `memcpy` fast path: all reads go to the captured
pre-update array `old`. -/
def copyLoop (cfg : MemCfg) (d s : Nat) (old : Nat → Nat) :
    Nat → (Nat → Nat) → Nat → Nat
  | 0, g => g
  | k + 1, g => fun a =>
      if a = Pointer.addUInt cfg d k then old (Pointer.addUInt cfg s k)
      else copyLoop cfg d s old k g a

/-- Operation `memcpy(d, s, bytes, align_dst, align_src, move)`:
dereferenceability on both ranges, the disjointness condition unless move
semantics was requested, then the fast path (the old array term is captured
before the first store) or the lambda rewrite. -/
def memcpy (cfg : MemCfg) (env : UFEnv) (m : Memory) (st : State)
    (d s bytes align_dst align_src : Nat) (move : Bool) : Memory × State :=
  let st := Pointer.is_dereferenceable cfg env d bytes align_dst st
  let st := Pointer.is_dereferenceable cfg env s bytes align_src st
  let st := if move then st else Pointer.is_disjoint cfg s bytes d bytes st
  if bytes ≤ 4 then
    ({ m with blocks_val := copyLoop cfg d s m.blocks_val bytes m.blocks_val }, st)
  else
    let m' := { m with
      blocks_val := fun idx =>
        if Pointer.both (Pointer.uge cfg idx d) &&
            Pointer.both (Pointer.ult cfg idx (Pointer.add cfg d bytes)) then
          m.blocks_val (Pointer.add cfg s
            ((Pointer.get_offset cfg idx + 2 ^ cfg.bits_for_offset -
              Pointer.get_offset cfg d) % 2 ^ cfg.bits_for_offset))
        else m.blocks_val idx
      last_idx_ptr := m.last_idx_ptr + 1 }
    (m', st)

/-- Operation `ptr2int(ptr)`. -/
def ptr2int (cfg : MemCfg) (env : UFEnv) (src : Bool) (_m : Memory) (p : Nat) : Nat :=
  Pointer.get_address cfg env src p

/-- Merge `mkIf(cond, then, els)` at a control-flow join: if-then-else on the
byte arrays, maxima of the counters, all remaining fields copied from the
`then` heap.  The source asserts that both heaps reference the same state. -/
def mkIf (cond : Bool) (tm em : Memory) : Memory :=
  { blocks_val := fun a => if cond then tm.blocks_val a else em.blocks_val a
    last_bid := max tm.last_bid em.last_bid
    last_idx_ptr := max tm.last_idx_ptr em.last_idx_ptr
    stateRef := tm.stateRef }

end Memory

/-! Arithmetic facts about the bit-field encodings. -/

theorem two_pow_pos (w : Nat) : 0 < 2 ^ w :=
  Nat.pos_pow_of_pos w (by omega)

theorem extractBits_lt (x lo w : Nat) : extractBits x lo w < 2 ^ w :=
  Nat.mod_lt _ (two_pow_pos w)

theorem concat_div {x y b : Nat} (hy : y < 2 ^ b) : (x * 2 ^ b + y) / 2 ^ b = x := by
  rw [mul_comm, Nat.mul_add_div (two_pow_pos b), Nat.div_eq_of_lt hy, Nat.add_zero]

theorem concat_mod {x y b : Nat} (hy : y < 2 ^ b) : (x * 2 ^ b + y) % 2 ^ b = y := by
  rw [Nat.add_comm, Nat.add_mul_mod_self_right, Nat.mod_eq_of_lt hy]

theorem concat_inj {x x' y y' b : Nat} (hy : y < 2 ^ b) (hy' : y' < 2 ^ b)
    (h : x * 2 ^ b + y = x' * 2 ^ b + y') : x = x' ∧ y = y' := by
  constructor
  · have := congrArg (· / 2 ^ b) h
    simpa [concat_div hy, concat_div hy'] using this
  · have := congrArg (· % 2 ^ b) h
    simpa [concat_mod hy, concat_mod hy'] using this

theorem extractBits_concat_lo {np b w : Nat} (hb : b < 2 ^ w) :
    extractBits (np * 2 ^ w + b) 0 w = b := by
  simp [extractBits, concat_mod hb]

theorem extractBits_concat_hi {np b w : Nat} (hb : b < 2 ^ w) (t : Nat) :
    extractBits (np * 2 ^ w + b) w t = np % 2 ^ t := by
  simp [extractBits, concat_div hb]

theorem mod_pow_mod {a w w' : Nat} (h : w ≤ w') : a % 2 ^ w' % 2 ^ w = a % 2 ^ w :=
  Nat.mod_mod_of_dvd a (pow_dvd_pow 2 h)

theorem sextTo_mod_low {w w' : Nat} (h : w ≤ w') (x : Nat) :
    sextTo w w' x % 2 ^ w = x % 2 ^ w := by
  unfold sextTo
  rcases Nat.lt_or_ge w w' with hlt | hge
  · rw [if_neg (by omega)]
    split
    · exact Nat.mod_mod_of_dvd x (dvd_refl _)
    · have hdvd : 2 ^ w ∣ 2 ^ w' - 2 ^ w :=
        Nat.dvd_sub' (pow_dvd_pow 2 h) dvd_rfl
      obtain ⟨c, hc⟩ := hdvd
      rw [hc, Nat.add_mul_mod_self_left, Nat.mod_mod_of_dvd x (dvd_refl _)]
  · have hww : w = w' := le_antisymm h hge
    subst hww
    rw [if_pos le_rfl, Nat.mod_mod_of_dvd x (dvd_refl _)]

/-! Shape of pointer addition. -/

namespace Pointer

theorem get_offset_lt (cfg : MemCfg) (p : Nat) :
    get_offset cfg p < 2 ^ cfg.bits_for_offset :=
  extractBits_lt ..

theorem get_bid_lt (cfg : MemCfg) (p : Nat) :
    get_bid cfg p < 2 ^ cfg.bits_for_bids :=
  Nat.mod_lt _ (two_pow_pos _)

/-- Closed form of `operator+` when the configured widths are consistent
(`bits_for_offset ≤ bits_size_t`, the asserted invariant of the model). -/
theorem add_eq (cfg : MemCfg) (hcfg : cfg.bits_for_offset ≤ cfg.bits_size_t)
    (p Δ : Nat) :
    add cfg p Δ =
      (get_offset cfg p + Δ) % 2 ^ cfg.bits_for_offset * 2 ^ cfg.bits_for_bids +
        get_bid cfg p := by
  unfold add
  congr 2
  rw [mod_pow_mod hcfg, Nat.add_mod,
    sextTo_mod_low hcfg, mod_pow_mod hcfg,
    Nat.mod_eq_of_lt (get_offset_lt cfg p), Nat.add_mod_mod]

theorem addUInt_eq (cfg : MemCfg) (hcfg : cfg.bits_for_offset ≤ cfg.bits_size_t)
    (p n : Nat) :
    addUInt cfg p n =
      (get_offset cfg p + n) % 2 ^ cfg.bits_for_offset * 2 ^ cfg.bits_for_bids +
        get_bid cfg p := by
  rw [addUInt, add_eq cfg hcfg, Nat.add_mod_mod]

theorem get_offset_add (cfg : MemCfg) (hcfg : cfg.bits_for_offset ≤ cfg.bits_size_t)
    (p Δ : Nat) :
    get_offset cfg (add cfg p Δ) = (get_offset cfg p + Δ) % 2 ^ cfg.bits_for_offset := by
  rw [add_eq cfg hcfg, get_offset, extractBits, concat_div (get_bid_lt cfg p),
    Nat.mod_eq_of_lt (Nat.mod_lt _ (two_pow_pos _))]

theorem get_bid_add (cfg : MemCfg) (p Δ : Nat) :
    get_bid cfg (add cfg p Δ) = get_bid cfg p := by
  rw [add, get_bid, concat_mod (get_bid_lt cfg p)]

theorem addUInt_congr (cfg : MemCfg) (hcfg : cfg.bits_for_offset ≤ cfg.bits_size_t)
    {i j : Nat} (p : Nat)
    (h : i % 2 ^ cfg.bits_for_offset = j % 2 ^ cfg.bits_for_offset) :
    addUInt cfg p i = addUInt cfg p j := by
  rw [addUInt_eq cfg hcfg, addUInt_eq cfg hcfg, Nat.add_mod, h, ← Nat.add_mod]

theorem addUInt_inj (cfg : MemCfg) (hcfg : cfg.bits_for_offset ≤ cfg.bits_size_t)
    {i j : Nat} (p : Nat)
    (hi : i < 2 ^ cfg.bits_for_offset) (hj : j < 2 ^ cfg.bits_for_offset)
    (h : addUInt cfg p i = addUInt cfg p j) : i = j := by
  rw [addUInt_eq cfg hcfg, addUInt_eq cfg hcfg] at h
  have hoff := (concat_inj (get_bid_lt cfg p) (get_bid_lt cfg p) h).1
  have : i % 2 ^ cfg.bits_for_offset = j % 2 ^ cfg.bits_for_offset := by
    have := Nat.ModEq.add_left_cancel (Nat.ModEq.refl (get_offset cfg p)) hoff
    exact this
  rwa [Nat.mod_eq_of_lt hi, Nat.mod_eq_of_lt hj] at this

end Pointer

/-! Behaviour of the unrolled loops. -/

theorem storeBytes_get (cfg : MemCfg) (hcfg : cfg.bits_for_offset ≤ cfg.bits_size_t)
    (p np v : Nat) (g : Nat → Nat) {k i : Nat}
    (hk : k ≤ 2 ^ cfg.bits_for_offset) (hik : i < k) :
    Memory.storeBytes cfg p np v k g (Pointer.addUInt cfg p i) =
      np * 2 ^ 8 + extractBits v (8 * i) 8 := by
  induction k with
  | zero => omega
  | succ k ih =>
    simp only [Memory.storeBytes]
    rcases Nat.lt_or_ge i k with hik' | hik'
    · have hne : Pointer.addUInt cfg p i ≠ Pointer.addUInt cfg p k := by
        intro h
        have := Pointer.addUInt_inj cfg hcfg p (by omega) (by omega) h
        omega
      rw [if_neg hne]
      exact ih (by omega) hik'
    · have hik'' : i = k := by omega
      subst hik''
      rw [if_pos rfl]

theorem memsetLoop_get (cfg : MemCfg) (p cell : Nat) (g : Nat → Nat) {k i : Nat}
    (hik : i < k) :
    Memory.memsetLoop cfg p cell k g (Pointer.addUInt cfg p i) = cell := by
  induction k with
  | zero => omega
  | succ k ih =>
    simp only [Memory.memsetLoop]
    by_cases h : Pointer.addUInt cfg p i = Pointer.addUInt cfg p k
    · rw [if_pos h]
    · rw [if_neg h]
      rcases Nat.lt_or_ge i k with hik' | hik'
      · exact ih hik'
      · have : i = k := by omega
        subst this
        exact absurd rfl h

theorem copyLoop_get (cfg : MemCfg) (hcfg : cfg.bits_for_offset ≤ cfg.bits_size_t)
    (d s : Nat) (old g : Nat → Nat) {k i : Nat} (hik : i < k) :
    Memory.copyLoop cfg d s old k g (Pointer.addUInt cfg d i) =
      old (Pointer.addUInt cfg s i) := by
  induction k with
  | zero => omega
  | succ k ih =>
    simp only [Memory.copyLoop]
    by_cases heq : Pointer.addUInt cfg d i = Pointer.addUInt cfg d k
    · rw [if_pos heq]
      rw [Pointer.addUInt_eq cfg hcfg, Pointer.addUInt_eq cfg hcfg] at heq
      have hoff := (concat_inj (Pointer.get_bid_lt cfg d) (Pointer.get_bid_lt cfg d) heq).1
      have hmod : i % 2 ^ cfg.bits_for_offset = k % 2 ^ cfg.bits_for_offset :=
        Nat.ModEq.add_left_cancel (Nat.ModEq.refl (Pointer.get_offset cfg d)) hoff
      exact congrArg old (Pointer.addUInt_congr cfg hcfg s hmod).symm
    · rw [if_neg heq]
      rcases Nat.lt_or_ge i k with hik' | hik'
      · exact ih hik'
      · have : i = k := by omega
        subst this
        exact absurd rfl heq

theorem copyLoop_ne (cfg : MemCfg) (d s : Nat) (old g : Nat → Nat) {k a : Nat}
    (h : ∀ i < k, a ≠ Pointer.addUInt cfg d i) :
    Memory.copyLoop cfg d s old k g a = g a := by
  induction k with
  | zero => rfl
  | succ k ih =>
    simp only [Memory.copyLoop]
    rw [if_neg (h k (by omega))]
    exact ih fun i hi => h i (by omega)

theorem storeBytes_ne (cfg : MemCfg) (p np v : Nat) (g : Nat → Nat) {k a : Nat}
    (h : ∀ i < k, a ≠ Pointer.addUInt cfg p i) :
    Memory.storeBytes cfg p np v k g a = g a := by
  induction k with
  | zero => rfl
  | succ k ih =>
    simp only [Memory.storeBytes]
    rw [if_neg (h k (by omega))]
    exact ih fun i hi => h i (by omega)

theorem mod_pow_succ8 (v k : Nat) :
    v % 2 ^ (8 * (k + 1)) = extractBits v (8 * k) 8 * 2 ^ (8 * k) + v % 2 ^ (8 * k) := by
  have h2 : 8 * (k + 1) = 8 * k + 8 := by omega
  have h : (2 : Nat) ^ (8 * (k + 1)) = 2 ^ (8 * k) * 2 ^ 8 := by
    rw [h2, pow_add]
  rw [h, Nat.mod_mul, extractBits]
  ring

theorem loadBytes_get (cfg : MemCfg) (p np v : Nat) (g : Nat → Nat) {k : Nat}
    (hg : ∀ i < k, g (Pointer.addUInt cfg p i) = np * 2 ^ 8 + extractBits v (8 * i) 8)
    (hnp : np < 2) :
    Memory.loadBytes cfg p g k =
      ⟨v % 2 ^ (8 * k), if k = 0 then 0 else np⟩ := by
  induction k with
  | zero => simp [Memory.loadBytes, Nat.mod_one]
  | succ k ih =>
    have hprev := ih fun i hi => hg i (by omega)
    have hcell := hg k (by omega)
    have hb : extractBits v (8 * k) 8 < 2 ^ 8 := extractBits_lt ..
    have h0 : extractBits (np * 2 ^ 8 + extractBits v (8 * k) 8) 0 8 =
        extractBits v (8 * k) 8 := extractBits_concat_lo hb
    have h8 : extractBits (np * 2 ^ 8 + extractBits v (8 * k) 8) 8 1 = np := by
      rw [extractBits_concat_hi hb, pow_one, Nat.mod_eq_of_lt hnp]
    have hlor0 : Nat.lor np 0 = np := by
      rcases (show np = 0 ∨ np = 1 by omega) with h | h <;> subst h <;> decide
    have hlors : Nat.lor np np = np := by
      rcases (show np = 0 ∨ np = 1 by omega) with h | h <;> subst h <;> decide
    simp only [Memory.loadBytes]
    rw [hprev, hcell, h0, h8]
    rcases Nat.eq_zero_or_pos k with hk | hk
    · subst hk
      rw [mod_pow_succ8 v 0]
      simp [hlor0]
    · have hk0 : ¬(k = 0) := by omega
      rw [mod_pow_succ8 v k]
      simp [hk0, hlors]

theorem divide_up_pos {bits : Nat} (h : 0 < bits) : 0 < divide_up bits 8 := by
  unfold divide_up
  omega

theorem le_mul_divide_up (bits : Nat) : bits ≤ 8 * divide_up bits 8 := by
  unfold divide_up
  omega

theorem ofBid_lt (cfg : MemCfg) (bid : Nat) (lcl : Bool) :
    Pointer.ofBid cfg bid lcl < 2 ^ cfg.bits_for_bids := by
  unfold Pointer.ofBid
  split <;> exact Nat.mod_lt _ (two_pow_pos _)

theorem get_offset_ofBid (cfg : MemCfg) (bid : Nat) (lcl : Bool) :
    Pointer.get_offset cfg (Pointer.ofBid cfg bid lcl) = 0 := by
  rw [Pointer.get_offset, extractBits, Nat.div_eq_of_lt (ofBid_lt cfg bid lcl),
    Nat.zero_mod]

/-! Claim theorems. -/

/-- Claim C4: pointer addition yields offset
`trunc(sext(offset) + zext(Δ))` with the bid field unchanged; `π + 0 = π`;
and `(π + a) + b` agrees with `π + (a + b)` modulo `2^W_off` on the offset
field, preserving the bid field. -/
theorem C4_pointer_add (cfg : MemCfg) (p Δ a b : Nat)
    (hcfg : cfg.bits_for_offset ≤ cfg.bits_size_t)
    (hp : p < 2 ^ cfg.total_bits) :
    (Pointer.get_offset cfg (Pointer.add cfg p Δ) =
        (sextTo cfg.bits_for_offset cfg.bits_size_t (Pointer.get_offset cfg p) +
            Δ % 2 ^ cfg.bits_size_t) % 2 ^ cfg.bits_size_t %
          2 ^ cfg.bits_for_offset ∧
      Pointer.get_bid cfg (Pointer.add cfg p Δ) = Pointer.get_bid cfg p) ∧
    Pointer.add cfg p 0 = p ∧
    (Pointer.get_offset cfg (Pointer.add cfg (Pointer.add cfg p a) b) =
        Pointer.get_offset cfg (Pointer.add cfg p (a + b)) ∧
      Pointer.get_bid cfg (Pointer.add cfg (Pointer.add cfg p a) b) =
        Pointer.get_bid cfg p) := by
  refine ⟨⟨?_, Pointer.get_bid_add cfg p Δ⟩, ?_, ?_, ?_⟩
  · rw [Pointer.add, Pointer.get_offset, extractBits,
      concat_div (Pointer.get_bid_lt cfg p),
      Nat.mod_eq_of_lt (Nat.mod_lt _ (two_pow_pos _))]
  · have hp' : p < 2 ^ (cfg.bits_for_offset + cfg.bits_for_bids) := by
      rw [Nat.add_comm]
      exact hp
    have hdiv : p / 2 ^ cfg.bits_for_bids < 2 ^ cfg.bits_for_offset := by
      rw [Nat.div_lt_iff_lt_mul (two_pow_pos _), ← pow_add]
      exact hp'
    have hoff : Pointer.get_offset cfg p = p / 2 ^ cfg.bits_for_bids := by
      rw [Pointer.get_offset, extractBits, Nat.mod_eq_of_lt hdiv]
    rw [Pointer.add_eq cfg hcfg, Nat.add_zero,
      Nat.mod_eq_of_lt (Pointer.get_offset_lt cfg p), hoff, Pointer.get_bid,
      Nat.mul_comm, Nat.div_add_mod]
  · rw [Pointer.get_offset_add cfg hcfg, Pointer.get_offset_add cfg hcfg,
      Pointer.get_offset_add cfg hcfg, Nat.mod_add_mod, Nat.add_assoc]
  · rw [Pointer.get_bid_add, Pointer.get_bid_add]

/-- Claim C4 witness at a concrete input. -/
theorem C4_pointer_add_witness :
    ((4 : Nat) ≤ 8 ∧ (0x37 : Nat) < 2 ^ MemCfg.total_bits ⟨4, 2, 2, 8⟩) ∧
      Pointer.add ⟨4, 2, 2, 8⟩ 0x37 0 = 0x37 :=
  ⟨⟨by decide, by decide⟩,
   (C4_pointer_add ⟨4, 2, 2, 8⟩ 0x37 9 3 5 (by decide) (by decide)).2.1⟩

/-- Claim C10: the unsigned overload of pointer addition first reduces the
count modulo `2^W_off`; the resulting offset field is
`(offset + n) mod 2^W_off`, and counts congruent modulo `2^W_off` produce
identical pointer terms. -/
theorem C10_addUInt_mod (cfg : MemCfg) (p n : Nat)
    (hcfg : cfg.bits_for_offset ≤ cfg.bits_size_t) :
    Pointer.addUInt cfg p n = Pointer.add cfg p (n % 2 ^ cfg.bits_for_offset) ∧
    Pointer.get_offset cfg (Pointer.addUInt cfg p n) =
      (Pointer.get_offset cfg p + n) % 2 ^ cfg.bits_for_offset ∧
    ∀ n', n % 2 ^ cfg.bits_for_offset = n' % 2 ^ cfg.bits_for_offset →
      Pointer.addUInt cfg p n = Pointer.addUInt cfg p n' := by
  refine ⟨rfl, ?_, fun n' h => Pointer.addUInt_congr cfg hcfg p h⟩
  rw [Pointer.addUInt_eq cfg hcfg, Pointer.get_offset, extractBits,
    concat_div (Pointer.get_bid_lt cfg p),
    Nat.mod_eq_of_lt (Nat.mod_lt _ (two_pow_pos _))]

/-- Claim C10 witness at a concrete input. -/
theorem C10_addUInt_mod_witness :
    ((4 : Nat) ≤ 8) ∧
      Pointer.get_offset ⟨4, 2, 2, 8⟩ (Pointer.addUInt ⟨4, 2, 2, 8⟩ 0x37 21) =
        (Pointer.get_offset ⟨4, 2, 2, 8⟩ 0x37 + 21) % 2 ^ 4 :=
  ⟨by decide, (C10_addUInt_mod ⟨4, 2, 2, 8⟩ 0x37 21 (by decide)).2.1⟩

/-- Specification-side rendering of the dereferenceability condition, with
the bound `offset + n_bytes ≤ block_size` stated on the exact (unwrapped)
sum, as the specification words it. -/
def derefUB_spec (cfg : MemCfg) (env : UFEnv) (src : Bool) (p n align : Nat) : Prop :=
  0 < zextTo cfg.bits_size_t n →
    (sextTo cfg.bits_for_offset cfg.bits_size_t (Pointer.get_offset cfg p) +
        zextTo cfg.bits_size_t n ≤ Pointer.block_size cfg env src p ∧
      sextTo cfg.bits_for_offset cfg.bits_size_t (Pointer.get_offset cfg p) +
        zextTo cfg.bits_size_t n < 2 ^ cfg.bits_size_t ∧
      Pointer.is_aligned cfg env src p align)

/-- Equality of the emitted undefined-behaviour condition with its
specification-side rendering: `is_dereferenceable` appends exactly one UB
condition and changes nothing else in the state. -/
theorem addUB_deref_spec (cfg : MemCfg) (env : UFEnv)
    (p bytes0 align : Nat) (st : State) :
    Pointer.is_dereferenceable cfg env p bytes0 align st =
      { st with ubs := st.ubs ++ [derefUB_spec cfg env st.isSource p bytes0 align] } := by
  have hiff : (zextTo cfg.bits_size_t bytes0 > 0 →
      (sextTo cfg.bits_for_offset cfg.bits_size_t (Pointer.get_offset cfg p) +
          zextTo cfg.bits_size_t bytes0) % 2 ^ cfg.bits_size_t ≤
        Pointer.block_size cfg env st.isSource p ∧
      sextTo cfg.bits_for_offset cfg.bits_size_t (Pointer.get_offset cfg p) +
          zextTo cfg.bits_size_t bytes0 < 2 ^ cfg.bits_size_t ∧
      Pointer.is_aligned cfg env st.isSource p align) ↔
      derefUB_spec cfg env st.isSource p bytes0 align := by
    unfold derefUB_spec
    constructor
    · intro h hpos
      obtain ⟨h1, h2, h3⟩ := h hpos
      exact ⟨by rwa [Nat.mod_eq_of_lt h2] at h1, h2, h3⟩
    · intro h hpos
      obtain ⟨h1, h2, h3⟩ := h hpos
      exact ⟨by rw [Nat.mod_eq_of_lt h2]; exact h1, h2, h3⟩
  exact congrArg st.addUB (propext hiff)

/-- Claim C5: `is_dereferenceable(n_bytes, align)` updates the state by
appending exactly one undefined-behaviour condition — the implication
`n_bytes > 0 → (offset + n_bytes ≤ block_size ∧ no unsigned overflow ∧
aligned)` — and changes nothing else. -/
theorem C5_is_dereferenceable_ub (cfg : MemCfg) (env : UFEnv)
    (p bytes0 align : Nat) (st : State) :
    Pointer.is_dereferenceable cfg env p bytes0 align st =
      { st with ubs := st.ubs ++ [derefUB_spec cfg env st.isSource p bytes0 align] } :=
  addUB_deref_spec cfg env p bytes0 align st

/-- Claim C6: `alloc` mints a new bid by incrementing `last_bid`, returns the
pointer at `(bid, offset = 0, local)`, leaves the heap contents and the UB
set untouched, and appends exactly the alignment and block-size facts as
preconditions; in particular, after `alloc(n, 8, local)` the divisibility of
the returned pointer's address by 8 is a precondition of the state. -/
theorem C6_alloc_preconditions (cfg : MemCfg) (env : UFEnv) (m : Memory)
    (st : State) (bytes align : Nat) (lcl : Bool) :
    ((Memory.alloc cfg env m st bytes align lcl).1 =
        Pointer.ofBid cfg (m.last_bid + 1) lcl ∧
      Pointer.get_offset cfg (Memory.alloc cfg env m st bytes align lcl).1 = 0 ∧
      (Memory.alloc cfg env m st bytes align lcl).2.1.last_bid = m.last_bid + 1 ∧
      (Memory.alloc cfg env m st bytes align lcl).2.1.blocks_val = m.blocks_val ∧
      (Memory.alloc cfg env m st bytes align lcl).2.2.ubs = st.ubs ∧
      (Memory.alloc cfg env m st bytes align lcl).2.2.pres = st.pres ++
        [Pointer.is_aligned cfg env st.isSource
            (Pointer.ofBid cfg (m.last_bid + 1) lcl) align,
          Pointer.block_size cfg env st.isSource
              (Pointer.ofBid cfg (m.last_bid + 1) lcl) =
            zextTo cfg.bits_size_t bytes]) ∧
    (Pointer.get_address cfg env st.isSource
          (Memory.alloc cfg env m st bytes 8 lcl).1 % 8 = 0) ∈
      (Memory.alloc cfg env m st bytes 8 lcl).2.2.pres := by
  constructor
  · refine ⟨rfl, get_offset_ofBid cfg _ lcl, rfl, rfl, rfl, ?_⟩
    simp [Memory.alloc, State.addPre]
  · have h8 : Pointer.is_aligned cfg env st.isSource
        (Pointer.ofBid cfg (m.last_bid + 1) lcl) 8 =
        (Pointer.get_address cfg env st.isSource
            (Pointer.ofBid cfg (m.last_bid + 1) lcl) % 8 = 0) := by
      have h3 : ilog2 8 = 3 := by decide
      rw [Pointer.is_aligned, h3, if_neg (by decide)]
      have hx : extractBits (Pointer.get_address cfg env st.isSource
          (Pointer.ofBid cfg (m.last_bid + 1) lcl)) 0 3 =
          Pointer.get_address cfg env st.isSource
            (Pointer.ofBid cfg (m.last_bid + 1) lcl) % 8 := by
        rw [extractBits, pow_zero, Nat.div_one]
        norm_num
      rw [hx]
    have hmem : Pointer.is_aligned cfg env st.isSource
        (Pointer.ofBid cfg (m.last_bid + 1) lcl) 8 ∈
        (Memory.alloc cfg env m st bytes 8 lcl).2.2.pres := by
      simp [Memory.alloc, State.addPre]
    exact h8 ▸ hmem

/-- Claim C8: merging with the negated condition and swapped branches gives
the same heap, provided both heaps reference one verification state (as the
source asserts). -/
theorem C8_mkIf_comm (c : Bool) (a b : Memory) (h : a.stateRef = b.stateRef) :
    Memory.mkIf (!c) a b = Memory.mkIf c b a := by
  cases c <;> simp [Memory.mkIf, h, Nat.max_comm]

/-- Claim C8 witness at a concrete input. -/
theorem C8_mkIf_comm_witness :
    (Memory.stateRef ⟨fun _ => 1, 1, 2, 5⟩ = Memory.stateRef ⟨fun _ => 2, 3, 1, 5⟩) ∧
      Memory.mkIf (!true) ⟨fun _ => 1, 1, 2, 5⟩ ⟨fun _ => 2, 3, 1, 5⟩ =
        Memory.mkIf true ⟨fun _ => 2, 3, 1, 5⟩ ⟨fun _ => 1, 1, 2, 5⟩ :=
  ⟨rfl, C8_mkIf_comm true ⟨fun _ => 1, 1, 2, 5⟩ ⟨fun _ => 2, 3, 1, 5⟩ rfl⟩

/-- Claim C9 counterexample: with a 2-bit local-bid field and `last_bid = 3`,
the next local allocation mints bid 4, whose shifted encoding truncates to
zero — the returned pointer has local bid 0 and `is_local()` false,
refuting the claim that every locally allocated pointer satisfies it. -/
theorem C9_counterexample :
    Pointer.get_local_bid ⟨2, 2, 2, 4⟩
        (Memory.alloc ⟨2, 2, 2, 4⟩
          ⟨fun _ _ => 0, fun _ => 0, fun _ _ => 0, fun _ => 0⟩
          ⟨fun _ => 0, 3, 0, 0⟩ ⟨[], [], true⟩ 4 1 true).1 = 0 ∧
      Pointer.is_local ⟨2, 2, 2, 4⟩
        (Memory.alloc ⟨2, 2, 2, 4⟩
          ⟨fun _ _ => 0, fun _ => 0, fun _ _ => 0, fun _ => 0⟩
          ⟨fun _ => 0, 3, 0, 0⟩ ⟨[], [], true⟩ 4 1 true).1 = false := by
  constructor <;> rfl

/-- Claim C9 (amended): whenever the freshly minted bid `last_bid + 1` is
nonzero modulo `2^W_lbid` — in particular for the first allocation, which
mints bid 1 — the pointer returned by a local `alloc` has nonzero local bid,
zero non-local bid, and satisfies `is_local()`. -/
theorem C9_alloc_local (cfg : MemCfg) (env : UFEnv) (m : Memory) (st : State)
    (bytes align : Nat)
    (h : (m.last_bid + 1) % 2 ^ cfg.bits_for_local_bid ≠ 0) :
    Pointer.get_local_bid cfg (Memory.alloc cfg env m st bytes align true).1 =
        (m.last_bid + 1) % 2 ^ cfg.bits_for_local_bid ∧
      Pointer.get_local_bid cfg (Memory.alloc cfg env m st bytes align true).1 ≠ 0 ∧
      Pointer.get_nonlocal_bid cfg
        (Memory.alloc cfg env m st bytes align true).1 = 0 ∧
      Pointer.is_local cfg (Memory.alloc cfg env m st bytes align true).1 = true := by
  have hptr : (Memory.alloc cfg env m st bytes align true).1 =
      (m.last_bid + 1) % 2 ^ cfg.bits_for_local_bid * 2 ^ cfg.bits_for_nonlocal_bid := by
    show Pointer.ofBid cfg (m.last_bid + 1) true = _
    rw [Pointer.ofBid, if_pos rfl, MemCfg.bits_for_bids, pow_add,
      Nat.mul_mod_mul_right]
  have hlocal : Pointer.get_local_bid cfg
      (Memory.alloc cfg env m st bytes align true).1 =
      (m.last_bid + 1) % 2 ^ cfg.bits_for_local_bid := by
    rw [hptr, Pointer.get_local_bid, extractBits,
      Nat.mul_div_cancel _ (two_pow_pos _),
      Nat.mod_eq_of_lt (Nat.mod_lt _ (two_pow_pos _))]
  have hnonlocal : Pointer.get_nonlocal_bid cfg
      (Memory.alloc cfg env m st bytes align true).1 = 0 := by
    rw [hptr, Pointer.get_nonlocal_bid, Nat.mul_mod_left]
  refine ⟨hlocal, ?_, hnonlocal, ?_⟩
  · rw [hlocal]
    exact h
  · rw [Pointer.is_local, hlocal, hnonlocal]
    simp [h]

/-- Claim C3 counterexample: storing the single-byte value 5 with non-poison
flag 1 (a byte that is not poisoned) produces the cell `0x105`, whose top bit
is 1 — refuting the claimed reading that the top bit is 1 exactly when the
stored byte is poisoned. -/
theorem C3_counterexample :
    ¬ ((extractBits ((Memory.store ⟨4, 2, 2, 8⟩
          ⟨fun _ _ => 0, fun _ => 0, fun _ _ => 0, fun _ => 0⟩
          ⟨8, fun v => v, fun v => v⟩ 1 ⟨fun _ => 0, 0, 0, 0⟩ ⟨[], [], true⟩ 1
          ⟨5, 1⟩).1.blocks_val (Pointer.addUInt ⟨4, 2, 2, 8⟩ 1 0)) 8 1 = 1) ↔
        StateValue.non_poison ⟨5, 1⟩ = 0) := by
  decide

/-- Claim C3 (amended): every 9-bit cell written by `store` and by the
`memset` fast path has the layout `(non_poison_bit : 1) ‖ (byte : 8)` — the
top bit is 1 exactly when the stored byte is NOT poisoned; a store of a
value with non-poison flag `np` writes `(np ‖ byte_i(v))` at `(π + i)` for
each byte index `i` (the per-byte addresses being distinct, i.e. for
`⌈b/8⌉ ≤ 2^W_off`). -/
theorem C3_cell_layout (cfg : MemCfg) (env : UFEnv) (ty : Ty)
    (align alignm : Nat) (m : Memory) (st : State) (p q n : Nat)
    (vv val : StateValue)
    (hcfg : cfg.bits_for_offset ≤ cfg.bits_size_t)
    (hbytes : divide_up ty.bits 8 ≤ 2 ^ cfg.bits_for_offset)
    (hnp : (ty.toBV vv).non_poison < 2)
    (hn : n ≤ 4) :
    (∀ i < divide_up ty.bits 8,
      (Memory.store cfg env ty align m st p vv).1.blocks_val
          (Pointer.addUInt cfg p i) =
        (ty.toBV vv).non_poison * 2 ^ 8 +
          extractBits (ty.toBV vv).value (8 * i) 8 ∧
      (extractBits ((Memory.store cfg env ty align m st p vv).1.blocks_val
            (Pointer.addUInt cfg p i)) 8 1 = 1 ↔
        (ty.toBV vv).non_poison ≠ 0)) ∧
    (∀ i < n,
      (Memory.memset cfg env m st q val n alignm).1.blocks_val
          (Pointer.addUInt cfg q i) =
        Memory.toBVBool val.non_poison * 2 ^ 8 + val.value ∧
      (val.value < 2 ^ 8 →
        (extractBits ((Memory.memset cfg env m st q val n alignm).1.blocks_val
              (Pointer.addUInt cfg q i)) 8 1 = 1 ↔
          val.non_poison ≠ 0))) := by
  constructor
  · intro i hi
    have hcell : (Memory.store cfg env ty align m st p vv).1.blocks_val
        (Pointer.addUInt cfg p i) =
        (ty.toBV vv).non_poison * 2 ^ 8 +
          extractBits (ty.toBV vv).value (8 * i) 8 := by
      show Memory.storeBytes cfg p (ty.toBV vv).non_poison (ty.toBV vv).value
          (divide_up ty.bits 8) m.blocks_val (Pointer.addUInt cfg p i) = _
      exact storeBytes_get cfg hcfg _ _ _ _ hbytes hi
    refine ⟨hcell, ?_⟩
    rw [hcell, extractBits_concat_hi (extractBits_lt ..), pow_one,
      Nat.mod_eq_of_lt hnp]
    omega
  · intro i hi
    have hcell : (Memory.memset cfg env m st q val n alignm).1.blocks_val
        (Pointer.addUInt cfg q i) =
        Memory.toBVBool val.non_poison * 2 ^ 8 + val.value := by
      simp only [Memory.memset]
      rw [if_pos hn]
      exact memsetLoop_get cfg q _ m.blocks_val hi
    refine ⟨hcell, fun hval8 => ?_⟩
    rw [hcell, extractBits_concat_hi hval8, pow_one]
    unfold Memory.toBVBool
    split
    · next h0 => simp [h0]
    · next h0 => simp [h0]

/-- Claim C3 witness at a concrete input. -/
theorem C3_cell_layout_witness :
    ((4 : Nat) ≤ 8 ∧ divide_up 8 8 ≤ 2 ^ (4 : Nat) ∧ (1 : Nat) < 2 ∧ (2 : Nat) ≤ 4) ∧
      (Memory.store ⟨4, 2, 2, 8⟩
          ⟨fun _ _ => 0, fun _ => 0, fun _ _ => 0, fun _ => 0⟩
          ⟨8, fun v => v, fun v => v⟩ 1 ⟨fun _ => 0, 0, 0, 0⟩ ⟨[], [], true⟩ 1
          ⟨5, 1⟩).1.blocks_val (Pointer.addUInt ⟨4, 2, 2, 8⟩ 1 0) =
        1 * 2 ^ 8 + extractBits 5 (8 * 0) 8 :=
  ⟨⟨by decide, by decide, by decide, by decide⟩,
   ((C3_cell_layout ⟨4, 2, 2, 8⟩
      ⟨fun _ _ => 0, fun _ => 0, fun _ _ => 0, fun _ => 0⟩
      ⟨8, fun v => v, fun v => v⟩ 1 1 ⟨fun _ => 0, 0, 0, 0⟩ ⟨[], [], true⟩ 1 3 2
      ⟨5, 1⟩ ⟨0, 0⟩ (by decide) (by decide) (by decide) (by decide)).1 0
      (by decide)).1⟩

/-- Claim C7: a memcpy whose length is a ground constant at most 4 unrolls
into that many byte stores, all reads resolved against the pre-update heap:
every copied destination byte holds the pre-call source byte — also under
overlap — and every other address is untouched. -/
theorem C7_memcpy_small (cfg : MemCfg) (env : UFEnv) (m : Memory) (st : State)
    (d s n align_dst align_src : Nat) (mov : Bool)
    (hcfg : cfg.bits_for_offset ≤ cfg.bits_size_t) (hn : n ≤ 4) :
    (∀ i < n,
      (Memory.memcpy cfg env m st d s n align_dst align_src mov).1.blocks_val
          (Pointer.addUInt cfg d i) = m.blocks_val (Pointer.addUInt cfg s i)) ∧
    (∀ a, (∀ i < n, a ≠ Pointer.addUInt cfg d i) →
      (Memory.memcpy cfg env m st d s n align_dst align_src mov).1.blocks_val a =
        m.blocks_val a) := by
  constructor
  · intro i hi
    simp only [Memory.memcpy]
    rw [if_pos hn]
    exact copyLoop_get cfg hcfg d s m.blocks_val m.blocks_val hi
  · intro a ha
    simp only [Memory.memcpy]
    rw [if_pos hn]
    exact copyLoop_ne cfg d s m.blocks_val m.blocks_val ha

/-- Claim C7 witness at a concrete (overlapping, move-semantics) input. -/
theorem C7_memcpy_small_witness :
    ((4 : Nat) ≤ 8 ∧ (2 : Nat) ≤ 4) ∧
      (Memory.memcpy ⟨4, 2, 2, 8⟩
          ⟨fun _ _ => 0, fun _ => 0, fun _ _ => 0, fun _ => 0⟩
          ⟨fun a => a, 0, 0, 0⟩ ⟨[], [], true⟩ 17 1 2 1 1 true).1.blocks_val
        (Pointer.addUInt ⟨4, 2, 2, 8⟩ 17 1) =
        Memory.blocks_val ⟨fun a => a, 0, 0, 0⟩ (Pointer.addUInt ⟨4, 2, 2, 8⟩ 1 1) :=
  ⟨⟨by decide, by decide⟩,
   (C7_memcpy_small ⟨4, 2, 2, 8⟩
      ⟨fun _ _ => 0, fun _ => 0, fun _ _ => 0, fun _ => 0⟩
      ⟨fun a => a, 0, 0, 0⟩ ⟨[], [], true⟩ 17 1 2 1 1 true
      (by decide) (by decide)).1 1 (by decide)⟩

/-- Claim C9 witness at a concrete input. -/
theorem C9_alloc_local_witness :
    ((0 + 1) % 2 ^ (2 : Nat) ≠ 0) ∧
      Pointer.is_local ⟨2, 2, 2, 4⟩
        (Memory.alloc ⟨2, 2, 2, 4⟩
          ⟨fun _ _ => 0, fun _ => 0, fun _ _ => 0, fun _ => 0⟩
          ⟨fun _ => 0, 0, 0, 0⟩ ⟨[], [], true⟩ 4 1 true).1 = true :=
  ⟨by decide,
   (C9_alloc_local ⟨2, 2, 2, 4⟩
      ⟨fun _ _ => 0, fun _ => 0, fun _ _ => 0, fun _ => 0⟩
      ⟨fun _ => 0, 0, 0, 0⟩ ⟨[], [], true⟩ 4 1 (by decide)).2.2.2⟩

/-- Claim C1 counterexample: with a one-bit offset field and a 24-bit type,
the three per-byte addresses of the store wrap (`π + 2` collides with
`π + 0`), so the loaded value differs from the stored one even though the
emitted dereference guard holds (the guard only constrains the truncated
byte count). -/
theorem C1_counterexample :
    (Memory.store ⟨1, 1, 1, 4⟩
        ⟨fun _ _ => 0, fun _ => 0, fun _ _ => 7, fun _ => 7⟩
        ⟨24, fun v => v, fun v => v⟩ 1 ⟨fun _ => 0, 0, 0, 0⟩ ⟨[], [], true⟩ 2
        ⟨66051, 1⟩).2.ubs =
      [derefUB_spec ⟨1, 1, 1, 4⟩
        ⟨fun _ _ => 0, fun _ => 0, fun _ _ => 7, fun _ => 7⟩ true 2 1 1] ∧
    derefUB_spec ⟨1, 1, 1, 4⟩
      ⟨fun _ _ => 0, fun _ => 0, fun _ _ => 7, fun _ => 7⟩ true 2 1 1 ∧
    (Memory.load ⟨1, 1, 1, 4⟩
        ⟨fun _ _ => 0, fun _ => 0, fun _ _ => 7, fun _ => 7⟩
        ⟨24, fun v => v, fun v => v⟩ 1
        (Memory.store ⟨1, 1, 1, 4⟩
          ⟨fun _ _ => 0, fun _ => 0, fun _ _ => 7, fun _ => 7⟩
          ⟨24, fun v => v, fun v => v⟩ 1 ⟨fun _ => 0, 0, 0, 0⟩ ⟨[], [], true⟩ 2
          ⟨66051, 1⟩).1
        (Memory.store ⟨1, 1, 1, 4⟩
          ⟨fun _ _ => 0, fun _ => 0, fun _ _ => 7, fun _ => 7⟩
          ⟨24, fun v => v, fun v => v⟩ 1 ⟨fun _ => 0, 0, 0, 0⟩ ⟨[], [], true⟩ 2
          ⟨66051, 1⟩).2 2).1 ≠
      Ty.fromBV ⟨24, fun v => v, fun v => v⟩
        (Ty.toBV ⟨24, fun v => v, fun v => v⟩ ⟨66051, 1⟩) := by
  refine ⟨?_, ?_, ?_⟩
  · exact congrArg State.ubs
      (addUB_deref_spec ⟨1, 1, 1, 4⟩
        ⟨fun _ _ => 0, fun _ => 0, fun _ _ => 7, fun _ => 7⟩ 2 1 1 ⟨[], [], true⟩)
  · intro _
    refine ⟨by decide, by decide, ?_⟩
    rw [Pointer.is_aligned, if_pos (by decide)]
    trivial
  · decide

/-- Claim C1 (amended): after `store(π, v, T, align)`, a `load(π, T, align)`
on the resulting heap returns exactly `fromBV (toBV v)` — the stored value
and its non-poison flag modulo the type's bit reinterpretation — provided
the type is well formed (`0 < bits`, `toBV` produces a `bits`-wide value
with one-bit non-poison flag) and the value spans at most `2^W_off` bytes,
so that the per-byte addresses do not wrap onto each other. -/
theorem C1_load_after_store (cfg : MemCfg) (env : UFEnv) (ty : Ty)
    (align : Nat) (m : Memory) (st : State) (p : Nat) (vv : StateValue)
    (hcfg : cfg.bits_for_offset ≤ cfg.bits_size_t)
    (hbits : 0 < ty.bits)
    (hbytes : divide_up ty.bits 8 ≤ 2 ^ cfg.bits_for_offset)
    (hval : (ty.toBV vv).value < 2 ^ ty.bits)
    (hnp : (ty.toBV vv).non_poison < 2) :
    (Memory.load cfg env ty align (Memory.store cfg env ty align m st p vv).1
        (Memory.store cfg env ty align m st p vv).2 p).1 =
      ty.fromBV (ty.toBV vv) := by
  have hcell : ∀ i < divide_up ty.bits 8,
      (Memory.store cfg env ty align m st p vv).1.blocks_val
          (Pointer.addUInt cfg p i) =
        (ty.toBV vv).non_poison * 2 ^ 8 +
          extractBits (ty.toBV vv).value (8 * i) 8 := by
    intro i hi
    show Memory.storeBytes cfg p (ty.toBV vv).non_poison (ty.toBV vv).value
        (divide_up ty.bits 8) m.blocks_val (Pointer.addUInt cfg p i) = _
    exact storeBytes_get cfg hcfg _ _ _ _ hbytes hi
  have hload := loadBytes_get cfg p (ty.toBV vv).non_poison (ty.toBV vv).value
    (Memory.store cfg env ty align m st p vv).1.blocks_val hcell hnp
  refine Eq.trans ?_ (congrArg ty.fromBV (show
      (⟨(ty.toBV vv).value % 2 ^ (8 * divide_up ty.bits 8) % 2 ^ ty.bits,
        if divide_up ty.bits 8 = 0 then 0 else (ty.toBV vv).non_poison⟩ : StateValue) =
      ty.toBV vv from ?_))
  · exact congrArg (fun w : StateValue =>
      ty.fromBV ⟨w.value % 2 ^ ty.bits, w.non_poison⟩) hload
  · have hne : ¬(divide_up ty.bits 8 = 0) := by
      have := divide_up_pos hbits
      omega
    rw [mod_pow_mod (le_mul_divide_up ty.bits), Nat.mod_eq_of_lt hval,
      if_neg hne]

/-- Claim C1 witness at a concrete input (a 16-bit store and load at offset
zero of a freshly zeroed heap). -/
theorem C1_load_after_store_witness :
    ((4 : Nat) ≤ 8 ∧ (0 : Nat) < 16 ∧ divide_up 16 8 ≤ 2 ^ (4 : Nat) ∧
        (43981 : Nat) < 2 ^ (16 : Nat) ∧ (1 : Nat) < 2) ∧
      (Memory.load ⟨4, 2, 2, 8⟩
          ⟨fun _ _ => 0, fun _ => 0, fun _ _ => 0, fun _ => 0⟩
          ⟨16, fun v => v, fun v => v⟩ 1
          (Memory.store ⟨4, 2, 2, 8⟩
            ⟨fun _ _ => 0, fun _ => 0, fun _ _ => 0, fun _ => 0⟩
            ⟨16, fun v => v, fun v => v⟩ 1 ⟨fun _ => 0, 0, 0, 0⟩ ⟨[], [], true⟩ 1
            ⟨43981, 1⟩).1
          (Memory.store ⟨4, 2, 2, 8⟩
            ⟨fun _ _ => 0, fun _ => 0, fun _ _ => 0, fun _ => 0⟩
            ⟨16, fun v => v, fun v => v⟩ 1 ⟨fun _ => 0, 0, 0, 0⟩ ⟨[], [], true⟩ 1
            ⟨43981, 1⟩).2 1).1 =
        Ty.fromBV ⟨16, fun v => v, fun v => v⟩
          (Ty.toBV ⟨16, fun v => v, fun v => v⟩ ⟨43981, 1⟩) :=
  ⟨⟨by decide, by decide, by decide, by decide, by decide⟩,
   C1_load_after_store ⟨4, 2, 2, 8⟩
     ⟨fun _ _ => 0, fun _ => 0, fun _ _ => 0, fun _ => 0⟩
     ⟨16, fun v => v, fun v => v⟩ 1 ⟨fun _ => 0, 0, 0, 0⟩ ⟨[], [], true⟩ 1
     ⟨43981, 1⟩ (by decide) (by decide) (by decide) (by decide) (by decide)⟩

/-- Claim C2: evaluation of `load` at a heap holding one poisoned byte
(cell `0x0AA`, top bit 0) and one non-poisoned byte (cell `0x1BB`, top bit
1).  The code combines the extracted per-byte flags with bitwise `or`, so
the 16-bit load comes back with non-poison flag 1 — it is reported
non-poisoned although a participating byte is poisoned, contradicting the
claimed semantics (any byte poisoned implies a poisoned result). -/
theorem C2_load_poison_or :
    (Memory.load ⟨4, 2, 2, 8⟩
        ⟨fun _ _ => 0, fun _ => 0, fun _ _ => 0, fun _ => 0⟩
        ⟨16, fun v => v, fun v => v⟩ 1
        ⟨fun a => if a = 1 then 170 else if a = 17 then 443 else 0, 0, 0, 0⟩
        ⟨[], [], true⟩ 1).1 = ⟨48042, 1⟩ ∧
    extractBits
      (Memory.blocks_val
        ⟨fun a => if a = 1 then 170 else if a = 17 then 443 else 0, 0, 0, 0⟩
        (Pointer.addUInt ⟨4, 2, 2, 8⟩ 1 0)) 8 1 = 0 := by
  constructor
  · decide
  · decide

end MemModel
